import Mathlib

/-!
Verification of core algorithms of the m-ld Javascript clone engine against a
shallow embedding of the source in Lean 4.

Covered components:
* journal tick-keys (`src/engine/journal/index.ts`, `tickKey`),
* journal operation disposal and causal reduction (`src/engine/journal/index.ts`),
* operation buffer encoding and decoding (`src/engine/MeldEncoding.ts`),
* triple/TID reification (`src/engine/MeldEncoding.ts`),
* clone initialisation recovery decisions (`src/dataset/DatasetClone.ts`),
* the SU-Set dataset transaction rules (modelled from the specification where
  the implementation file is not part of the analysed sources).

Strings from the source are modelled as `List Char` where character-level
reasoning matters, and as `String` elsewhere.  JavaScript numbers appearing as
ticks and sizes are modelled as `Nat`; all the modelled quantities are
non-negative counters in the source.
-/

namespace MeldSpec

/-! ## Journal tick keys (`src/engine/journal/index.ts` lines 18-31)

The source:
```
const TICK_KEY_LEN = 8;
const TICK_KEY_RADIX = 36;
const TICK_KEY_PAD = '0'.repeat(TICK_KEY_LEN);
export function tickKey(tick: number): TickKey {
  return `_qs:tick:${TICK_KEY_PAD.concat(tick.toString(TICK_KEY_RADIX)).slice(-TICK_KEY_LEN)}`;
}
```
-/

/-- Base-36 digit character, as produced by JavaScript
`Number.prototype.toString(36)`: `0`-`9` for values below ten, then
lower-case `a`-`z`. -/
def digitChar36 (d : Nat) : Char :=
  if d < 10 then Char.ofNat (48 + d) else Char.ofNat (87 + d)

/-- JavaScript `tick.toString(36)`: positional base-36 representation,
most significant digit first, with no leading zeroes (`0` renders as "0"). -/
def toString36 (n : Nat) : List Char :=
  if n < 36 then [digitChar36 n]
  else toString36 (n / 36) ++ [digitChar36 (n % 36)]
termination_by n
decreasing_by exact Nat.div_lt_self (by omega) (by omega)

def TICK_KEY_LEN : Nat := 8

def TICK_KEY_PAD : List Char := List.replicate TICK_KEY_LEN '0'

/-- JavaScript `s.slice(-len)`: the last `len` characters of `s`
(the whole string when it is shorter than `len`). -/
def sliceLast (len : Nat) (s : List Char) : List Char := s.drop (s.length - len)

/-- `tickKey` from `src/engine/journal/index.ts`: the entry key for a tick,
zero-padded base-36 under the `_qs:tick:` prefix. -/
def tickKey (tick : Nat) : List Char :=
  "_qs:tick:".data ++ sliceLast TICK_KEY_LEN (TICK_KEY_PAD ++ toString36 tick)

/-- Fixed-width big-endian base-36 rendering: exactly `k` digit characters. -/
def digitsBE : Nat → Nat → List Char
  | 0, _ => []
  | k + 1, n => digitsBE k (n / 36) ++ [digitChar36 (n % 36)]

/-! ## Journal operations and the causal-reduction walk
(`src/engine/journal/index.ts` lines 106-110 and 177-239)

The journal's key/value store holds, per TID, the entry's `prev` link
(`_qs:tid:{tid}`, read by `entryPrev`) and the encoded operation
(`_qs:op:{tid}`, read by `operation`), plus the journal state whose GWC lists
the latest TIDs (`state().gwc.tids()`).
-/

/-- Modelled from the spec: the tree clock (`src/engine/clocks.ts` is not among
the analysed sources).  Only the features the journal walk reads are modelled:
the tick count, and, for each tick `t`, whether the clock rewound to `t`
(`time.ticked(t)`) has a zero id-leaf, i.e. rewinding crosses the owner's fork
point ("forked, never ticked"). -/
structure MClock where
  ticks : Nat
  zeroIdAt : Nat → Bool

/-- A journal operation as `causalReduce` sees it: its TID, the first tick it
covers (`from` in the source, renamed since `from` is reserved), and its clock.
Its end tick is `time.ticks`. -/
structure MOp where
  tid : String
  fromTick : Nat
  time : MClock

def MOp.tick (o : MOp) : Nat := o.time.ticks

/-- The journal indexes read by `disposeOperationIfUnreferenced` and
`causalReduce`: `tidEntry` is the per-TID entry record carrying the stored
`prev` pair (`entryPrev`), `opRec` the per-TID stored operation, and `gwcTids`
the TIDs of the current GWC. -/
structure JournalData where
  tidEntry : String → Option (Nat × String)
  opRec : String → Option MOp
  gwcTids : List String

/-- `Journal.disposeOperationIfUnreferenced` (`src/engine/journal/index.ts`
lines 182-195): returns `false` and leaves the store untouched when the TID
has a journal entry or appears in the GWC; otherwise deletes the `op:{tid}`
record and returns `true`.  The kvps batch `del` is modelled as a pointwise
update of `opRec`. -/
def disposeOperationIfUnreferenced (j : JournalData) (tid : String) :
    Bool × JournalData :=
  if (j.tidEntry tid).isSome then (false, j)
  else if j.gwcTids.contains tid then (false, j)
  else (true, { j with opRec := fun t => if t = tid then none else j.opRec t })

/-- The backward seek of `Journal.causalReduce` (`seekToFrom`,
`src/engine/journal/index.ts` lines 219-232): repeatedly read the previous
entry link of the current TID and, while the previous entry exists in the
journal, its tick has not gone back beyond `minFrom`
(`prevTick >= minFrom`), it is contiguous with the current operation
(`prevTick === currentOp.from - 1`) and rewinding the current clock to the
previous tick does not cross a fork
(`!currentOp.time.ticked(prevTick).isZeroId`), bank the previous operation
and continue from it.  The source keeps the history in an array whose head is
the current operation; here the head is `currentOp` and `rest` the rest of
the history (most recent last).  A referenced operation missing from the
store is the source's "Journal corrupted" throw, modelled as `none`.  The
source recursion also carries the previous tick, which its body never reads,
and it is unbounded; here it is bounded by an explicit fuel which
`causalReduce` instantiates so that on a well-formed journal it is never
exhausted (proved in `causalReduce_spec`). -/
def seekToFrom (j : JournalData) (minFrom : Nat) :
    Nat → MOp → List MOp → String → Option (MOp × List MOp)
  | 0, currentOp, rest, _ => some (currentOp, rest)
  | fuel + 1, currentOp, rest, tid =>
    match j.tidEntry tid with
    | none => some (currentOp, rest)
    | some (prevTick, prevTid) =>
      if minFrom ≤ prevTick ∧ prevTick + 1 = currentOp.fromTick ∧
          currentOp.time.zeroIdAt prevTick = false then
        match j.opRec prevTid with
        | none => none
        | some prevOp => seekToFrom j minFrom fuel prevOp (currentOp :: rest) prevTid
      else some (currentOp, rest)

/-- A causal-reduction operator (`CausalOperator` in the source): created from
the first operation of the collected history, fed each later operation with
`next`, then committed to an operation. -/
structure CausalFold (σ : Type) where
  create : MOp → σ
  next : σ → MOp → σ
  commit : σ → MOp

/-- `Journal.causalReduce` (`src/engine/journal/index.ts` lines 211-239):
seek backward from `op` to the first causally-contiguous operation, then
create the reduction operator from it and fast-forward over the rest of the
history. -/
def causalReduce {σ : Type} (j : JournalData) (op : MOp) (oper : CausalFold σ)
    (minFrom : Nat) : Option MOp :=
  match seekToFrom j minFrom op.fromTick op [] op.tid with
  | none => none
  | some (first, rest) =>
    some (oper.commit (rest.foldl oper.next (oper.create first)))

/-- Modelled from the spec: the fusion operator over the collected history
(`src/engine/ops.ts` is not among the analysed sources).  Per spec section 4.3,
fusing a contiguous successor into an operation yields one covering the
combined tick range: the `from` of the earliest constituent with the time (and
hence TID) of the latest. -/
def fusionFold : CausalFold MOp where
  create o := o
  next acc o := { tid := o.tid, fromTick := acc.fromTick, time := o.time }
  commit s := s

/-- Declarative statement of one backward step of the walk: `prev` is the
operation the journal stores for the previous entry of `cur`, the previous
tick is within `minFrom`, contiguous with `cur`, and does not cross a fork
boundary. -/
def LinkedOp (j : JournalData) (minFrom : Nat) (prev cur : MOp) : Prop :=
  ∃ p, j.tidEntry cur.tid = some (p, prev.tid) ∧ minFrom ≤ p ∧
    p + 1 = cur.fromTick ∧ cur.time.zeroIdAt p = false ∧
    j.opRec prev.tid = some prev

/-- Declarative statement that the walk can go no further back from `cur`:
either no previous entry exists, or it fails the tick bound, contiguity or
fork-boundary condition. -/
def StoppedOp (j : JournalData) (minFrom : Nat) (cur : MOp) : Prop :=
  ∀ p t, j.tidEntry cur.tid = some (p, t) →
    ¬(minFrom ≤ p ∧ p + 1 = cur.fromTick ∧ cur.time.zeroIdAt p = false)

/-- Journal well-formedness: every entry's `prev` link references a stored
operation, keyed by its own TID, whose tick range starts no later than the
previous tick (an operation never covers ticks after its own entry). -/
def WfJournal (j : JournalData) : Prop :=
  ∀ tid p tid', j.tidEntry tid = some (p, tid') →
    ∃ o, j.opRec tid' = some o ∧ o.tid = tid' ∧ o.fromTick ≤ p

/-- A concrete two-operation journal used to witness `causalReduce_spec`:
operation `a` covers tick 1, operation `b` covers tick 2 and its entry links
back to `(1, a)`. -/
def opAW : MOp := ⟨"a", 1, ⟨1, fun _ => false⟩⟩

def opBW : MOp := ⟨"b", 2, ⟨2, fun _ => false⟩⟩

def jW : JournalData :=
  ⟨fun t => if t = "b" then some (1, "a") else none,
   fun t => if t = "a" then some opAW else if t = "b" then some opBW else none,
   []⟩

/-! ## Operation buffer encoding (`src/engine/MeldEncoding.ts` lines 17 and
137-162)

The source:
```
const COMPRESS_THRESHOLD_BYTES = 1024;
static bufferFromJson(json: object): [Buffer, BufferEncoding[]] {
  const packed = MsgPack.encode(json);
  return packed.length > COMPRESS_THRESHOLD_BYTES ?
    [gzipSync(packed), [BufferEncoding.MSGPACK, BufferEncoding.GZIP]] :
    [packed, [BufferEncoding.MSGPACK]];
}
static jsonFromBuffer<T>(encoded: Buffer, encoding: BufferEncoding[]): T {
  let result: any = encoded;
  for (let i = encoding.length - 1; i >= 0; i--) {
    switch (encoding[i]) { JSON: parse; MSGPACK: decode; GZIP: gunzip; }
  }
  return result;
}
```
-/

/-- JSON values carried in operation components. -/
inductive Json where
  | null
  | bool (b : Bool)
  | num (n : Int)
  | str (s : String)
  | arr (items : List Json)
  | obj (fields : List (String × Json))

/-- The `BufferEncoding` enum (imported by `MeldEncoding.ts` from
`src/engine/index.ts`), with the variants its decoder switches on. -/
inductive BufferEncoding where
  | JSON
  | MSGPACK
  | GZIP
deriving DecidableEq

mutual
/-- A concrete size measure standing in for the byte length of the
message-pack encoding of a JSON value (the message-pack library is an
external collaborator; only the length comparison against the compression
threshold matters to the encoder). -/
def Json.packedSize : Json → Nat
  | .null => 1
  | .bool _ => 1
  | .num _ => 9
  | .str s => s.length + 5
  | .arr items => 5 + Json.packedSizeList items
  | .obj fields => 5 + Json.packedSizeFields fields

def Json.packedSizeList : List Json → Nat
  | [] => 0
  | j :: js => j.packedSize + Json.packedSizeList js

def Json.packedSizeFields : List (String × Json) → Nat
  | [] => 0
  | f :: fs => f.1.length + 5 + f.2.packedSize + Json.packedSizeFields fs
end

/-- The byte buffers exchanged with the external codecs.  The message-pack
and zlib libraries are external collaborators (spec section 1 treats
serialisation details as out of scope), so they are modelled by their
interface contract: `msgPacked j` is the message-pack byte encoding of `j`,
`gzipped b` the gzip compression of `b`, and `jsonText j` a UTF-8 JSON
rendering (never produced by `bufferFromJson`, but accepted by the decoder's
`JSON` branch). -/
inductive Buffer where
  | jsonText (j : Json)
  | msgPacked (j : Json)
  | gzipped (b : Buffer)

/-- `Buffer.length` in the source: byte length of a buffer. -/
def Buffer.byteLength : Buffer → Nat
  | .jsonText j => j.packedSize
  | .msgPacked j => j.packedSize
  | .gzipped b => b.byteLength / 2 + 1

/-- `MsgPack.encode` of the external message-pack codec. -/
def MsgPack.encode (j : Json) : Buffer := Buffer.msgPacked j

/-- `MsgPack.decode` of the external message-pack codec; decoding anything
other than a message-pack buffer throws, modelled as `none`. -/
def MsgPack.decode : Buffer → Option Json
  | .msgPacked j => some j
  | _ => none

/-- `gzipSync` of the external zlib codec. -/
def gzipSync (b : Buffer) : Buffer := Buffer.gzipped b

/-- `gunzipSync` of the external zlib codec; decompressing a buffer that is
not gzipped throws, modelled as `none`. -/
def gunzipSync : Buffer → Option Buffer
  | .gzipped b => some b
  | _ => none

/-- `JSON.parse(result.toString())`: parsing succeeds on a UTF-8 JSON text
buffer and throws on binary data, modelled as `none`. -/
def jsonParse : Buffer → Option Json
  | .jsonText j => some j
  | _ => none

def COMPRESS_THRESHOLD_BYTES : Nat := 1024

/-- `MeldEncoder.bufferFromJson` (`src/engine/MeldEncoding.ts` lines
137-142). -/
def bufferFromJson (json : Json) : Buffer × List BufferEncoding :=
  let packed := MsgPack.encode json
  if packed.byteLength > COMPRESS_THRESHOLD_BYTES then
    (gzipSync packed, [BufferEncoding.MSGPACK, BufferEncoding.GZIP])
  else (packed, [BufferEncoding.MSGPACK])

/-- One iteration of `jsonFromBuffer`'s loop: the running `result` is either
still a byte buffer (`Sum.inl`) or an already-decoded JSON value
(`Sum.inr`); applying a byte-level codec to a decoded value throws. -/
def decodeStep : BufferEncoding → Buffer ⊕ Json → Option (Buffer ⊕ Json)
  | BufferEncoding.JSON, Sum.inl b => (jsonParse b).map Sum.inr
  | BufferEncoding.MSGPACK, Sum.inl b => (MsgPack.decode b).map Sum.inr
  | BufferEncoding.GZIP, Sum.inl b => (gunzipSync b).map Sum.inl
  | _, Sum.inr _ => none

/-- `MeldEncoder.jsonFromBuffer` (`src/engine/MeldEncoding.ts` lines
144-162): apply the recorded encoding chain in reverse (the loop runs from
the last encoding entry down to the first).  The caller expects the final
result to be a JSON value; a result that is still a raw buffer (for instance
with an empty encoding vector) is a failed cast, modelled as `none`. -/
def jsonFromBuffer (encoded : Buffer) (encoding : List BufferEncoding) :
    Option Json :=
  match encoding.reverse.foldlM (fun r e => decodeStep e r) (Sum.inl encoded) with
  | some (Sum.inr j) => some j
  | _ => none

/-! ## Clone initialisation (`src/dataset/DatasetClone.ts` lines 35-94)

`DatasetClone.initialise` loads the stored clock; if none exists it marks the
clone new and requests a clock from the remotes.  If the clock's top level is
the id (never forked) it only subscribes to remote updates.  Otherwise a new
clone requests a snapshot; an existing clone requests `revupFrom` and, if the
peer returns a stream, subscribes it into the message-service receiver, else
falls back to `requestSnapshot` (which obtains a snapshot and applies it).
-/

/-- The tree clock as `DatasetClone.initialise` reads it: only `isId` (the
top level is the id, i.e. the clock has never been forked) is consulted.  A
clock loaded from a non-empty store exists; a new clone's clock comes from
`remotes.newClock()`. -/
structure CloneClock where
  isId : Bool

/-- The externally visible actions `initialise` takes: which remote requests
it makes and what it wires up.  `subscribedRevupStream` records that the
returned rev-up stream was subscribed into the merged source feeding the
message-service `updateReceiver`; `appliedSnapshot` that `requestSnapshot`
delivered and applied a snapshot. -/
structure InitDecision where
  calledNewClock : Bool
  subscribedUpdates : Bool
  calledRevup : Bool
  subscribedRevupStream : Bool
  calledSnapshot : Bool
  appliedSnapshot : Bool

/-- `DatasetClone.requestSnapshot` (lines 78-94): requests a snapshot from
the remotes and applies it through the message service. -/
def requestSnapshot (d : InitDecision) : InitDecision :=
  { d with calledSnapshot := true, appliedSnapshot := true }

/-- `DatasetClone.initialise` (lines 35-70), as the decision structure it
produces. `storedClock` is `dataset.loadClock()`; `newClockResp` the clock
`remotes.newClock()` would return; `revup` the response of
`remotes.revupFrom` (`none` models `undefined`, the peer's incapability). -/
def initialise (storedClock : Option CloneClock) (newClockResp : CloneClock)
    (revup : Option Unit) : InitDecision :=
  let base : InitDecision := ⟨false, false, false, false, false, false⟩
  match storedClock with
  | some time =>
    if time.isId then { base with subscribedUpdates := true }
    else
      match revup with
      | some _ =>
        { base with subscribedUpdates := true, calledRevup := true, subscribedRevupStream := true }
      | none =>
        requestSnapshot
          { base with subscribedUpdates := true, calledRevup := true }
  | none =>
    let time := newClockResp
    if time.isId then
      { base with calledNewClock := true, subscribedUpdates := true }
    else
      requestSnapshot { base with calledNewClock := true, subscribedUpdates := true }

/-! ## Triple/TID reification (`src/engine/MeldEncoding.ts` lines 80-120)

`reifyTriplesTids` turns each blank-node-identified triple with its TIDs into
reification quads; `unreifyTriplesTids` reduces reification quads back into
triples-with-TIDs, grouped by the reification's blank node subject.
-/

/-- RDF terms as the reifier reads them: the term type and its value.  The
extra literal attributes (datatype, language) ride through both directions
unread and are omitted. -/
inductive Term where
  | namedNode (value : List Char)
  | blankNode (value : List Char)
  | literal (value : List Char)
deriving DecidableEq

def Term.value : Term → List Char
  | .namedNode v => v
  | .blankNode v => v
  | .literal v => v

structure Triple where
  subject : Term
  predicate : Term
  object : Term
deriving DecidableEq

/-- A `RefTriple`: a triple carrying a `@id` reference. -/
structure RefTriple where
  id : List Char
  subject : Term
  predicate : Term
  object : Term
deriving DecidableEq

/-- `RDF.subject` from `src/ns`: the standard RDF syntax namespace. -/
def RDF.subject : List Char :=
  "http://www.w3.org/1999/02/22-rdf-syntax-ns#subject".data

def RDF.predicate : List Char :=
  "http://www.w3.org/1999/02/22-rdf-syntax-ns#predicate".data

def RDF.object : List Char :=
  "http://www.w3.org/1999/02/22-rdf-syntax-ns#object".data

/-- `M_LD.tid` from `src/ns/m-ld.ts`: the m-ld base with fragment `#tid`. -/
def M_LD.tid : List Char := "http://m-ld.org/#tid".data

/-- One triple's reification quads: `(rid, rdf:subject, s)`,
`(rid, rdf:predicate, p)`, `(rid, rdf:object, o)`, then one
`(rid, m-ld:tid, tid)` literal quad per TID, where `rid` is the blank node
named by the `@id` without its `_:` prefix (`this.rdf.blankNode(
triple['@id'].slice(2))`). -/
def reifyOne (t : RefTriple) (tids : List (List Char)) : List Triple :=
  let rid := t.id.drop 2
  [⟨Term.blankNode rid, Term.namedNode RDF.subject, t.subject⟩,
   ⟨Term.blankNode rid, Term.namedNode RDF.predicate, t.predicate⟩,
   ⟨Term.blankNode rid, Term.namedNode RDF.object, t.object⟩] ++
  tids.map (fun tid => ⟨Term.blankNode rid, Term.namedNode M_LD.tid, Term.literal tid⟩)

/-- `MeldEncoder.reifyTriplesTids` (lines 80-94): maps each entry to its
reification quads and flattens, throwing `TypeError` (modelled as
`Except.error` carrying the offending `@id`) when an entry's `@id` does not
start with `_:`. -/
def reifyTriplesTids :
    List (RefTriple × List (List Char)) → Except (List Char) (List Triple)
  | [] => Except.ok []
  | (t, tids) :: rest =>
    if (['_', ':'] : List Char).isPrefixOf t.id then
      match reifyTriplesTids rest with
      | Except.ok qs => Except.ok (reifyOne t tids ++ qs)
      | Except.error e => Except.error e
    else Except.error t.id

/-- The partially-rebuilt triple of `unreifyTriplesTids`: the source starts
from the bare reference `{'@id': '_:' + rid}` and fills `subject`,
`predicate` and `object` as reification quads arrive (the TypeScript type
presents it as a complete `RefTriple`; unfilled positions are absent at
runtime, modelled as `Option`). -/
structure PartRef where
  id : List Char
  subject : Option Term
  predicate : Option Term
  object : Option Term
deriving DecidableEq

instance : Nonempty PartRef := ⟨⟨[], none, none, none⟩⟩

/-- A grouping entry of the `unreifyTriplesTids` reducer: the rebuilt triple
paired with its TIDs. -/
abbrev UGroup : Type := PartRef × List (List Char)

/-- Association-list lookup, modelling JavaScript object property access
(`rids[rid]`). -/
def lookupA : List (List Char × UGroup) → List Char → Option UGroup
  | [], _ => none
  | p :: rest, k => if p.1 = k then some p.2 else lookupA rest k

/-- Association-list update, modelling JavaScript object property assignment
(`rids[rid] = ...`): an existing key keeps its insertion position, a new key
is appended. -/
def upsert : List (List Char × UGroup) → List Char → UGroup → List (List Char × UGroup)
  | [], k, v => [(k, v)]
  | p :: rest, k, v =>
    if p.1 = k then (k, v) :: rest else p :: upsert rest k v

/-- The reducer body of `unreifyTriplesTids` for one reification quad: group
by the quad's subject blank node value, fill the triple position named by the
quad's predicate (subject and predicate only from named nodes), or push a
TID. -/
def unreifyStep (rids : List (List Char × UGroup))
    (reification : Triple) : List (List Char × UGroup) :=
  let rid := reification.subject.value
  let group := (lookupA rids rid).getD (⟨'_' :: ':' :: rid, none, none, none⟩, [])
  let triple := group.1
  let tids := group.2
  let upd : UGroup :=
    if reification.predicate.value = RDF.subject then
      match reification.object with
      | Term.namedNode v => ({ triple with subject := some (Term.namedNode v) }, tids)
      | _ => (triple, tids)
    else if reification.predicate.value = RDF.predicate then
      match reification.object with
      | Term.namedNode v => ({ triple with predicate := some (Term.namedNode v) }, tids)
      | _ => (triple, tids)
    else if reification.predicate.value = RDF.object then
      ({ triple with object := some reification.object }, tids)
    else if reification.predicate.value = M_LD.tid then
      (triple, tids ++ [reification.object.value])
    else (triple, tids)
  upsert rids rid upd

/-- `MeldEncoder.unreifyTriplesTids` (lines 96-120): reduce the reification
quads into per-blank-node groups, then take the groups in insertion order
(JavaScript `Object.values`). -/
def unreifyTriplesTids (reifications : List Triple) : List UGroup :=
  (reifications.foldl unreifyStep []).map Prod.snd

/-- The fully-rebuilt form of an identified triple, used to state the
reification round trip. -/
def completedRef (t : RefTriple) : PartRef :=
  ⟨t.id, some t.subject, some t.predicate, some t.object⟩

/-- The flattened reification quads of a whole list (the successful result of
`reifyTriplesTids`). -/
def reifyAll : List (RefTriple × List (List Char)) → List Triple
  | [] => []
  | (t, tids) :: rest => reifyOne t tids ++ reifyAll rest

/-- Association-list keys. -/
def keysA (l : List (List Char × UGroup)) : List (List Char) :=
  l.map Prod.fst

/-- A concrete blank-node-identified triple-with-TIDs list, witnessing the
reification round trip. -/
def xW : List (RefTriple × List (List Char)) :=
  [(⟨"_:b1".data, Term.namedNode "http://ex.org/s".data,
      Term.namedNode "http://ex.org/p".data, Term.literal "o".data⟩,
    ["tid1".data])]

/-- A list whose entry's `@id` is not a blank node reference. -/
def yW : List (RefTriple × List (List Char)) :=
  [(⟨"badid".data, Term.namedNode "http://ex.org/s".data,
      Term.namedNode "http://ex.org/p".data, Term.literal "o".data⟩, [])]

/-! ## SU-Set dataset transaction rules (modelled from the spec)

`src/engine/dataset/SuSetDataset.ts` is not among the analysed sources (only
its tests under `test/SuSetDataset.test.ts` are), so the SU-Set transaction
rules are modelled from the specification, sections 3 ("SU-Set triple
storage") and 4.4 ("SU-Set dataset").
-/

/-- Modelled from the spec: a stored triple is abstracted to its identity;
the RDF content of a triple plays no role in the SU-Set transaction rules. -/
abbrev Trip := String

abbrev TID := String

/-- Modelled from the spec (section 3): each asserted triple is stored
together with the list of TIDs that asserted it; a triple is present iff its
TID set is non-empty. -/
abbrev SuSetState := List (Trip × List TID)

def lookupT : SuSetState → Trip → Option (List TID)
  | [], _ => none
  | e :: rest, t => if e.1 = t then some e.2 else lookupT rest t

/-- The TID set of a triple (empty when the triple is not stored). -/
def tidsOf (s : SuSetState) (t : Trip) : List TID := (lookupT s t).getD []

/-- A triple is present (visible to reads) iff its TID set is non-empty. -/
def present (s : SuSetState) (t : Trip) : Bool := !(tidsOf s t).isEmpty

/-- Modelled from the spec (4.4 write step 3 / apply step 2): remove the TID
from the triple's TID set; if the set becomes empty, remove the triple. -/
def withdrawTid : SuSetState → Trip → TID → SuSetState
  | [], _, _ => []
  | e :: rest, t, tid =>
    if e.1 = t then
      let tids := e.2.filter (fun x => x ≠ tid)
      if tids.isEmpty then rest else (e.1, tids) :: rest
    else e :: withdrawTid rest t tid

/-- Modelled from the spec (4.4 write step 4 / apply step 3): add the TID to
the triple's TID set (set union, so an already-recorded TID is not
duplicated); insert the triple if new. -/
def insertTid : SuSetState → Trip → TID → SuSetState
  | [], t, tid => [(t, [tid])]
  | e :: rest, t, tid =>
    if e.1 = t then (e.1, if e.2.contains tid then e.2 else e.2 ++ [tid]) :: rest
    else e :: insertTid rest t tid

def applyDeletes (dels : List (Trip × TID)) (s : SuSetState) : SuSetState :=
  dels.foldl (fun acc d => withdrawTid acc d.1 d.2) s

def applyInserts (ins : List (Trip × TID)) (s : SuSetState) : SuSetState :=
  ins.foldl (fun acc i => insertTid acc i.1 i.2) s

/-- Modelled from the spec (4.4 stale-cut): "withdraw from the incoming
inserts any reified triples whose TID is already reflected in the GWC;
retain the tail".  `reflected` is the set of TIDs the local GWC already
reflects for the fusion's source and range. -/
def cutInserts (reflected : List TID) (ins : List (Trip × TID)) :
    List (Trip × TID) :=
  ins.filter (fun i => !(reflected.contains i.2))

/-- Modelled from the spec (4.4 apply with stale-cut): applying an incoming
fused operation withdraws the deletes and applies only the inserts that
survive the cut. -/
def applyFusion (s : SuSetState) (reflected : List TID)
    (dels ins : List (Trip × TID)) : SuSetState :=
  applyInserts (cutInserts reflected ins) (applyDeletes dels s)

/-- Modelled from the spec (section 3): the local clock as a vector of
per-process ticks, joined by component-wise maximum (`update(other)`). -/
abbrev SVClock := List Nat

def SVClock.join (a b : SVClock) : SVClock :=
  List.zipWith max a b

/-- The only error kind the modelled transaction path raises
(spec section 7). -/
inductive MeldErr where
  | OperationSizeExceeded
deriving DecidableEq

/-- An operation message: its time and its resolved deletes and inserts. -/
abbrev OpMsg := SVClock × List (Trip × TID) × List (Trip × TID)

/-- Modelled from the spec: the engine state a SU-Set transaction touches —
the triple store, the committed journal entry times, the emitted update
events, and the local clock. -/
structure SuState where
  graph : SuSetState
  journal : List SVClock
  updates : List (List (Trip × TID) × List (Trip × TID))
  time : SVClock

/-- The outcome of a transaction: the published message (if any), the raised
error (if any) and the resulting engine state. -/
structure TransactResult where
  msg : Option OpMsg
  err : Option MeldErr
  state : SuState

/-- Modelled from the spec: the encoded size of an operation, as a concrete
measure (total length of the identifiers carried); only its comparison with
`maxOperationSize` matters.  An empty operation encodes to size zero. -/
def opSize (dels ins : List (Trip × TID)) : Nat :=
  (dels.map (fun p => p.1.length + p.2.length)).sum +
    (ins.map (fun p => p.1.length + p.2.length)).sum

/-- Modelled from the spec (4.4 Write, section 7, and section 8 boundary
behaviours): a local transaction whose patch resolves to no deletes and no
inserts is a no-op — no journal entry, no update emission, a `null`
message.  Otherwise, if the encoded operation exceeds `maxOperationSize`,
the transaction aborts with `OperationSizeExceeded` and the store is left
unchanged (no entry, no message, no update).  Otherwise the patch is applied
to the graph, an entry is committed, an update is emitted and the message is
returned. -/
def transact (st : SuState) (txnTime : SVClock)
    (dels ins : List (Trip × TID)) (maxOpSize : Nat) : TransactResult :=
  if dels.isEmpty ∧ ins.isEmpty then
    { msg := none, err := none, state := st }
  else if opSize dels ins > maxOpSize then
    { msg := none, err := some MeldErr.OperationSizeExceeded, state := st }
  else
    { msg := some (txnTime, dels, ins),
      err := none,
      state :=
        { graph := applyInserts ins (applyDeletes dels st.graph),
          journal := st.journal ++ [txnTime],
          updates := st.updates ++ [(dels, ins)],
          time := txnTime } }

/-- Modelled from the spec (4.4 Apply and section 8 scenario 3): a received
remote operation whose deletes and inserts are both empty commits no journal
entry and emits no update, returning a `null` message, but the local clock
is still joined with the operation's time; a non-empty operation is applied
to the graph, committed and emitted under the joined clock. -/
def applyRemote (st : SuState) (opTime : SVClock)
    (dels ins : List (Trip × TID)) : TransactResult :=
  if dels.isEmpty ∧ ins.isEmpty then
    { msg := none, err := none,
      state := { st with time := st.time.join opTime } }
  else
    { msg := some (opTime, dels, ins),
      err := none,
      state :=
        { graph := applyInserts ins (applyDeletes dels st.graph),
          journal := st.journal ++ [opTime],
          updates := st.updates ++ [(dels, ins)],
          time := st.time.join opTime } }

/-- A concrete SU-Set store for the stale-cut witness: `wilma` has already
been deleted by a concurrent third-party operation (her sole asserting TID
`W1` was withdrawn), `fred` is present. -/
def sW : SuSetState := [("fred", ["F1"])]

/-- The inserts of an incoming fusion: the stale insert of `wilma` under the
already-reflected TID `W1`, and the newer insert of `barney` under `B2`. -/
def insW : List (Trip × TID) := [("wilma", "W1"), ("barney", "B2")]

/-- A concrete engine state for the operation-size witness. -/
def stW : SuState := ⟨[], [], [], [0]⟩

/-! # Theorems -/

theorem length_digitsBE (k n : Nat) : (digitsBE k n).length = k := by
  induction k generalizing n with
  | zero => rfl
  | succ k ih => simp [digitsBE, ih]

theorem toString36_length_le (n : Nat) : ∀ k, 1 ≤ k → n < 36 ^ k →
    (toString36 n).length ≤ k := by
  induction n using Nat.strong_induction_on with
  | _ n ih =>
    intro k hk hn
    rw [toString36]
    split
    · simpa using hk
    · rename_i hge
      match k, hk with
      | 1, _ => omega
      | k + 2, _ =>
        have hdiv : n / 36 < 36 ^ (k + 1) := by
          rw [Nat.div_lt_iff_lt_mul (by omega)]
          calc n < 36 ^ (k + 2) := hn
          _ = 36 ^ (k + 1) * 36 := by ring
        have := ih (n / 36) (Nat.div_lt_self (by omega) (by omega)) (k + 1) (by omega) hdiv
        simp only [List.length_append, List.length_cons, List.length_nil]
        omega

theorem toString36_zero : toString36 0 = ['0'] := by
  rw [toString36]; norm_num; rfl

theorem digitsBE_eq_pad : ∀ k, 1 ≤ k → ∀ n, n < 36 ^ k →
    digitsBE k n = List.replicate (k - (toString36 n).length) '0' ++ toString36 n
  | 0, hk, _, _ => absurd hk (by omega)
  | 1, _, n, h => by
    have h36 : n < 36 := by simpa using h
    rw [digitsBE, digitsBE, toString36]
    simp [Nat.mod_eq_of_lt h36, h36]
  | k + 2, _, n, h => by
    by_cases h36 : n < 36
    · have hd0 : n / 36 = 0 := Nat.div_eq_of_lt h36
      have ih := digitsBE_eq_pad (k + 1) (by omega) 0 (Nat.pos_pow_of_pos _ (by omega))
      rw [digitsBE, hd0, ih, toString36_zero]
      rw [toString36]
      rw [if_pos h36, Nat.mod_eq_of_lt h36]
      simp only [List.length_singleton]
      rw [show k + 1 - 1 = k from rfl, show k + 2 - 1 = k + 1 from rfl]
      rw [List.append_assoc, show (['0'] ++ [digitChar36 n] : List Char) =
        '0' :: [digitChar36 n] from rfl]
      rw [show (List.replicate (k + 1) '0' : List Char) =
        List.replicate k '0' ++ ['0'] from List.replicate_succ' _ _]
      simp
    · have hdiv : n / 36 < 36 ^ (k + 1) := by
        rw [Nat.div_lt_iff_lt_mul (by omega)]
        calc n < 36 ^ (k + 2) := h
        _ = 36 ^ (k + 1) * 36 := by ring
      have ih := digitsBE_eq_pad (k + 1) (by omega) (n / 36) hdiv
      have hlen : (toString36 (n / 36)).length ≤ k + 1 :=
        toString36_length_le (n / 36) (k + 1) (by omega) hdiv
      rw [digitsBE, ih]
      conv_rhs => rw [toString36]
      rw [if_neg h36]
      rw [List.append_assoc]
      congr 1
      congr 1
      simp only [List.length_append, List.length_cons, List.length_nil]
      omega

theorem tickKey_eq (n : Nat) (h : n < 36 ^ 8) :
    tickKey n = "_qs:tick:".data ++ digitsBE 8 n := by
  have hlen : (toString36 n).length ≤ 8 := toString36_length_le n 8 (by omega) h
  rw [tickKey, digitsBE_eq_pad 8 (by omega) n h]
  congr 1
  rw [sliceLast, TICK_KEY_PAD, TICK_KEY_LEN]
  rw [List.length_append, List.length_replicate]
  rw [show 8 + (toString36 n).length - 8 = (toString36 n).length from by omega]
  rw [List.drop_append_of_le_length (by simpa using hlen)]
  rw [List.drop_replicate]

theorem lex_append_of_lex {r : Char → Char → Prop} {xs ys : List Char}
    (hlex : List.Lex r xs ys) (hlen : xs.length = ys.length) :
    ∀ as bs : List Char, List.Lex r (xs ++ as) (ys ++ bs) := by
  induction hlex with
  | nil => intro as bs; simp at hlen
  | rel h => intro as bs; exact List.Lex.rel h
  | cons _ ih =>
    intro as bs
    exact List.Lex.cons (ih (by simpa using hlen) as bs)

theorem lex_append_left {r : Char → Char → Prop} :
    ∀ p : List Char, ∀ {as bs : List Char}, List.Lex r as bs →
    List.Lex r (p ++ as) (p ++ bs)
  | [], _, _, h => h
  | _ :: p, _, _, h => List.Lex.cons (lex_append_left p h)

theorem digitChar36_lt : ∀ a < 36, ∀ b < 36, a < b → digitChar36 a < digitChar36 b := by
  decide

theorem digitsBE_lex : ∀ k, ∀ a b, a < b → b < 36 ^ k →
    List.Lex (fun x y : Char => x < y) (digitsBE k a) (digitsBE k b)
  | 0, a, b, hab, hb => by simp at hb; omega
  | k + 1, a, b, hab, hb => by
    have hbdiv : b / 36 < 36 ^ k := by
      rw [Nat.div_lt_iff_lt_mul (by omega)]
      calc b < 36 ^ (k + 1) := hb
      _ = 36 ^ k * 36 := by ring
    have hle : a / 36 ≤ b / 36 := Nat.div_le_div_right (le_of_lt hab)
    rcases lt_or_eq_of_le hle with hlt | heq
    · exact lex_append_of_lex (digitsBE_lex k (a / 36) (b / 36) hlt hbdiv)
        (by rw [length_digitsBE, length_digitsBE]) _ _
    · have hmod : a % 36 < b % 36 := by
        have ha' := Nat.div_add_mod a 36
        have hb' := Nat.div_add_mod b 36
        omega
      rw [digitsBE, digitsBE, heq]
      exact lex_append_left _
        (List.Lex.rel (digitChar36_lt (a % 36) (Nat.mod_lt _ (by omega))
          (b % 36) (Nat.mod_lt _ (by omega)) hmod))

/-- C8: `tickKey` pads the tick's base-36 representation to exactly 8 digits,
so for all non-negative integer ticks `a` and `b` with `a < b < 36^8`,
`tickKey a` is strictly less than `tickKey b` in lexicographic string order
(tick-keys are ordered by tick, giving a maximum representable tick of
`36^8`). -/
theorem tickKey_lex_lt (a b : Nat) (hab : a < b) (hb : b < 36 ^ 8) :
    List.Lex (fun x y : Char => x < y) (tickKey a) (tickKey b) := by
  rw [tickKey_eq a (lt_trans hab hb), tickKey_eq b hb]
  exact lex_append_left _ (digitsBE_lex 8 a b hab hb)

/-- Witness for C8 at concrete ticks 10 and 36. -/
theorem tickKey_lex_lt_witness :
    10 < 36 ∧ 36 < 36 ^ 8 ∧
      List.Lex (fun x y : Char => x < y) (tickKey 10) (tickKey 36) :=
  ⟨by norm_num, by norm_num,
    tickKey_lex_lt 10 36 (by norm_num) (by norm_num)⟩

/-- C7: an operation stored in the journal is disposed (its `op:{tid}` record
deleted) by `disposeOperationIfUnreferenced` if and only if it has no journal
entry indexed under its TID and its TID does not appear in the current GWC;
when either reference exists, the call returns `false` and deletes nothing. -/
theorem disposeOperationIfUnreferenced_spec (j : JournalData) (tid : String) :
    ((disposeOperationIfUnreferenced j tid).1 = true ↔
      j.tidEntry tid = none ∧ tid ∉ j.gwcTids) ∧
    ((disposeOperationIfUnreferenced j tid).1 = true →
      (disposeOperationIfUnreferenced j tid).2.opRec tid = none ∧
      (∀ t, t ≠ tid →
        (disposeOperationIfUnreferenced j tid).2.opRec t = j.opRec t) ∧
      (disposeOperationIfUnreferenced j tid).2.tidEntry = j.tidEntry ∧
      (disposeOperationIfUnreferenced j tid).2.gwcTids = j.gwcTids) ∧
    ((disposeOperationIfUnreferenced j tid).1 = false →
      (disposeOperationIfUnreferenced j tid).2 = j) := by
  unfold disposeOperationIfUnreferenced
  split_ifs with he hg
  · exact ⟨iff_of_false (by simp) (fun h => by simp [h.1] at he),
      fun h => by simp at h, fun _ => rfl⟩
  · exact ⟨iff_of_false (by simp) (fun h => h.2 (by simpa using hg)),
      fun h => by simp at h, fun _ => rfl⟩
  · refine ⟨iff_of_true rfl ⟨?_, fun hmem => hg (by simpa using hmem)⟩,
      fun _ => ⟨by simp, fun t ht => by simp [ht], rfl, rfl⟩,
      fun h => by simp at h⟩
    cases hval : j.tidEntry tid with
    | none => rfl
    | some v => rw [hval] at he; simp at he

/-- Witness for C7: with no entry and an unrelated GWC TID, the operation is
disposed. -/
theorem disposeOperationIfUnreferenced_spec_witness :
    (disposeOperationIfUnreferenced
      ⟨fun _ => none, fun _ => none, ["other"]⟩ "mytid").1 = true :=
  ((disposeOperationIfUnreferenced_spec
      ⟨fun _ => none, fun _ => none, ["other"]⟩ "mytid").1).mpr
    ⟨rfl, by decide⟩

theorem seekToFrom_spec (j : JournalData) (minFrom : Nat)
    (hwf : WfJournal j) :
    ∀ fuel (cur : MOp) (rest : List MOp), cur.fromTick ≤ fuel →
    ∃ first pre,
      seekToFrom j minFrom fuel cur rest cur.tid = some (first, pre ++ rest) ∧
      StoppedOp j minFrom first ∧
      List.Chain' (LinkedOp j minFrom) (first :: pre) ∧
      (first :: pre).getLast? = some cur := by
  intro fuel
  induction fuel with
  | zero =>
    intro cur rest hle
    refine ⟨cur, [], rfl, ?_, List.chain'_singleton _, rfl⟩
    intro p t _ hcond
    omega
  | succ fuel ih =>
    intro cur rest hle
    rw [seekToFrom]
    cases hent : j.tidEntry cur.tid with
    | none =>
      refine ⟨cur, [], rfl, ?_, List.chain'_singleton _, rfl⟩
      intro p t hpt
      rw [hent] at hpt
      cases hpt
    | some pt =>
      obtain ⟨prevTick, prevTid⟩ := pt
      dsimp only
      by_cases hguard : minFrom ≤ prevTick ∧ prevTick + 1 = cur.fromTick ∧
          cur.time.zeroIdAt prevTick = false
      · obtain ⟨o, ho, hotid, hofrom⟩ := hwf _ _ _ hent
        rw [if_pos hguard, ho]
        dsimp only
        have hofuel : o.fromTick ≤ fuel := by omega
        obtain ⟨first, pre, hseek, hstop, hchain, hlast⟩ := ih o (cur :: rest) hofuel
        rw [hotid] at hseek
        refine ⟨first, pre ++ [cur], ?_, hstop, ?_, ?_⟩
        · rw [hseek]
          simp
        · rw [show first :: (pre ++ [cur]) = (first :: pre) ++ [cur] from rfl]
          rw [List.chain'_append]
          refine ⟨hchain, List.chain'_singleton _, ?_⟩
          intro x hx y hy
          rw [hlast] at hx
          simp only [Option.mem_def, Option.some.injEq] at hx
          simp only [List.head?_cons, Option.mem_def, Option.some.injEq] at hy
          subst hx; subst hy
          exact ⟨prevTick, by rw [hent, hotid], hguard.1, hguard.2.1, hguard.2.2,
            by rw [hotid]; exact ho⟩
        · rw [show first :: (pre ++ [cur]) = (first :: pre) ++ [cur] from rfl]
          exact List.getLast?_concat _
      · rw [if_neg hguard]
        refine ⟨cur, [], rfl, ?_, List.chain'_singleton _, rfl⟩
        intro p t hpt
        rw [hent] at hpt
        injection hpt with hpt
        injection hpt with h1 h2
        subst h1
        exact fun hc => hguard hc

theorem foldl_fusionFold (acc : MOp) (rest : List MOp) :
    rest.foldl fusionFold.next acc =
      (match rest.getLast? with
      | none => acc
      | some l => { tid := l.tid, fromTick := acc.fromTick, time := l.time }) := by
  induction rest generalizing acc with
  | nil => rfl
  | cons x xs ih =>
    rw [List.foldl_cons, ih (fusionFold.next acc x)]
    cases xs with
    | nil => rfl
    | cons y ys =>
      rw [List.getLast?_cons_cons]
      cases hx : (y :: ys).getLast? with
      | none => simp at hx
      | some l => rfl

/-- C6: for every journal operation `op` and bound `minFrom >= 1`,
`causalReduce` walks backward along the stored `prev` links collecting
operations exactly while the previous entry exists in the journal, its tick
is `>= minFrom`, its tick equals the current operation's `from` minus 1
(contiguous), and stepping back would not cross a fork boundary (the clock
ticked back to `prevTick` does not have a zero id); it then folds the
collected operations forward from the earliest, returning the resulting
fused operation whose range ends at `op`'s tick.  On a well-formed journal:
the collected history `first :: rest` is a chain of `LinkedOp` steps, ends at
`op`, can be extended no further back (`StoppedOp`), the result is the
forward fold of the operator over it, and with the fusion operator the result
covers `[first.fromTick .. op.tick]`, carrying `op`'s time. -/
theorem causalReduce_spec {σ : Type} (j : JournalData) (oper : CausalFold σ)
    (op : MOp) (minFrom : Nat) (hwf : WfJournal j) (hmf : 1 ≤ minFrom) :
    ∃ first rest,
      causalReduce j op oper minFrom =
        some (oper.commit (rest.foldl oper.next (oper.create first))) ∧
      List.Chain' (LinkedOp j minFrom) (first :: rest) ∧
      (first :: rest).getLast? = some op ∧
      StoppedOp j minFrom first ∧
      causalReduce j op fusionFold minFrom =
        some { tid := op.tid, fromTick := first.fromTick, time := op.time } := by
  obtain ⟨first, pre, hseek, hstop, hchain, hlast⟩ :=
    seekToFrom_spec j minFrom hwf op.fromTick op [] (le_refl _)
  rw [List.append_nil] at hseek
  refine ⟨first, pre, ?_, hchain, hlast, hstop, ?_⟩
  · rw [causalReduce, hseek]
  · rw [causalReduce, hseek]
    dsimp only
    rw [foldl_fusionFold]
    cases hpre : pre with
    | nil =>
      rw [hpre] at hlast
      simp only [List.getLast?_singleton, Option.some.injEq] at hlast
      subst hlast
      rfl
    | cons q qs =>
      have hql : (q :: qs).getLast? = some op := by
        rw [hpre] at hlast
        rw [List.getLast?_cons_cons] at hlast
        cases qs with
        | nil => simpa using hlast
        | cons r rs => simpa using hlast
      rw [hql]
      rfl

/-- Witness for C6 on the concrete two-operation journal `jW`. -/
theorem causalReduce_spec_witness :
    WfJournal jW ∧ 1 ≤ 1 ∧ (causalReduce jW opBW fusionFold 1).isSome = true := by
  have hwf : WfJournal jW := by
    intro tid p tid' h
    by_cases hb : tid = "b"
    · subst hb
      rw [show jW.tidEntry "b" = some (1, "a") from rfl] at h
      injection h with h2
      injection h2 with hp ht
      subst hp
      subst ht
      exact ⟨opAW, rfl, rfl, le_refl 1⟩
    · simp [jW, hb] at h
  refine ⟨hwf, le_refl 1, ?_⟩
  obtain ⟨first, rest, h1, -, -, -, -⟩ :=
    causalReduce_spec jW fusionFold opBW 1 hwf (le_refl 1)
  rw [h1]
  rfl

theorem jsonFromBuffer_of_bufferFromJson (j : Json) :
    jsonFromBuffer (bufferFromJson j).1 (bufferFromJson j).2 = some j := by
  dsimp only [bufferFromJson]
  split_ifs with h <;> rfl

/-- C4 counterexample: for the small JSON value `{}` the encoder emits a
message-pack buffer with encoding vector `[MSGPACK]`, not a UTF-8 JSON
string with vector `[JSON]` as the claim states. -/
theorem bufferFromJson_small_counterexample :
    (bufferFromJson (Json.obj [])).2 = [BufferEncoding.MSGPACK] ∧
    (bufferFromJson (Json.obj [])).2 ≠ [BufferEncoding.JSON] ∧
    (bufferFromJson (Json.obj [])).1 = Buffer.msgPacked (Json.obj []) := by
  refine ⟨by decide, by decide, rfl⟩

/-- C4 (amended): for every JSON value `j`, `bufferFromJson j` yields the
message-pack encoding with companion encoding vector `[MSGPACK]` when the
packed form does not exceed 1024 bytes, and the gzip-compressed message-pack
buffer with vector `[MSGPACK, GZIP]` when the packed form exceeds 1024
bytes; the vector records the choice so that the decoder applying the
reverse chain recovers `j`. -/
theorem bufferFromJson_encoding_choice (j : Json) :
    ((MsgPack.encode j).byteLength ≤ COMPRESS_THRESHOLD_BYTES →
      bufferFromJson j = (MsgPack.encode j, [BufferEncoding.MSGPACK])) ∧
    ((MsgPack.encode j).byteLength > COMPRESS_THRESHOLD_BYTES →
      bufferFromJson j = (gzipSync (MsgPack.encode j),
        [BufferEncoding.MSGPACK, BufferEncoding.GZIP])) ∧
    jsonFromBuffer (bufferFromJson j).1 (bufferFromJson j).2 = some j := by
  refine ⟨fun hle => ?_, fun hgt => ?_, jsonFromBuffer_of_bufferFromJson j⟩
  · dsimp only [bufferFromJson]
    rw [if_neg (by omega)]
  · dsimp only [bufferFromJson]
    rw [if_pos hgt]

set_option maxRecDepth 10000 in
/-- Witness for C4 (amended) at the small value `{}` and at a large string
value exceeding the 1024-byte threshold. -/
theorem bufferFromJson_encoding_choice_witness :
    ((MsgPack.encode (Json.obj [])).byteLength ≤ COMPRESS_THRESHOLD_BYTES ∧
      bufferFromJson (Json.obj []) =
        (MsgPack.encode (Json.obj []), [BufferEncoding.MSGPACK])) ∧
    ((MsgPack.encode (Json.str (String.mk (List.replicate 1020 'x')))).byteLength >
        COMPRESS_THRESHOLD_BYTES ∧
      bufferFromJson (Json.str (String.mk (List.replicate 1020 'x'))) =
        (gzipSync (MsgPack.encode (Json.str (String.mk (List.replicate 1020 'x')))),
          [BufferEncoding.MSGPACK, BufferEncoding.GZIP])) :=
  ⟨⟨by decide, (bufferFromJson_encoding_choice (Json.obj [])).1 (by decide)⟩,
   ⟨by decide, (bufferFromJson_encoding_choice
      (Json.str (String.mk (List.replicate 1020 'x')))).2.1 (by decide)⟩⟩

/-- C5: encoding and decoding of operation buffers round-trip: for every
JSON value `j` produced by this engine, `jsonFromBuffer` applied to the
buffer and encoding vector produced by `bufferFromJson j` returns `j`,
because the decoder applies the recorded encoding chain in reverse. -/
theorem encode_decode_roundtrip (j : Json) :
    jsonFromBuffer (bufferFromJson j).1 (bufferFromJson j).2 = some j :=
  jsonFromBuffer_of_bufferFromJson j

/-- C9: during initialisation of a clone with a non-empty store (a stored
clock exists) whose clock has been forked, the engine requests `revupFrom`
from the remotes; if the peer returns nothing (`undefined`, signalling
incapability), the engine falls back to requesting a full snapshot and
applies it; if the peer returns a rev-up stream, the stream's operations are
delivered through the message service and no snapshot is requested. -/
theorem initialise_forked_recovery (stored : CloneClock)
    (newClockResp : CloneClock) (revup : Option Unit)
    (hforked : stored.isId = false) :
    (initialise (some stored) newClockResp revup).calledRevup = true ∧
    (revup = none →
      (initialise (some stored) newClockResp revup).calledSnapshot = true ∧
      (initialise (some stored) newClockResp revup).appliedSnapshot = true ∧
      (initialise (some stored) newClockResp revup).subscribedRevupStream = false) ∧
    (∀ r, revup = some r →
      (initialise (some stored) newClockResp revup).subscribedRevupStream = true ∧
      (initialise (some stored) newClockResp revup).calledSnapshot = false) := by
  cases revup with
  | none =>
    simp [initialise, requestSnapshot, hforked]
  | some r =>
    simp [initialise, requestSnapshot, hforked]

/-- Witness for C9 with a concrete forked clock, in both the incapable-peer
and the stream-returning cases. -/
theorem initialise_forked_recovery_witness :
    ((⟨false⟩ : CloneClock).isId = false ∧
      (initialise (some ⟨false⟩) ⟨true⟩ none).calledSnapshot = true) ∧
    (initialise (some ⟨false⟩) ⟨true⟩ (some ())).subscribedRevupStream = true :=
  ⟨⟨rfl, ((initialise_forked_recovery ⟨false⟩ ⟨true⟩ none rfl).2.1 rfl).1⟩,
   ((initialise_forked_recovery ⟨false⟩ ⟨true⟩ (some ()) rfl).2.2 () rfl).1⟩

theorem lookupA_eq_none (l : List (List Char × UGroup)) (k : List Char)
    (h : k ∉ keysA l) : lookupA l k = none := by
  induction l with
  | nil => rfl
  | cons p rest ih =>
    simp only [keysA, List.map_cons, List.mem_cons, not_or] at h
    rw [lookupA, if_neg (fun hh => h.1 hh.symm)]
    exact ih (by simpa [keysA] using h.2)

theorem lookupA_append_self (l : List (List Char × UGroup)) (k : List Char)
    (v : UGroup) (h : k ∉ keysA l) : lookupA (l ++ [(k, v)]) k = some v := by
  induction l with
  | nil => simp [lookupA]
  | cons p rest ih =>
    simp only [keysA, List.map_cons, List.mem_cons, not_or] at h
    rw [List.cons_append, lookupA, if_neg (fun hh => h.1 hh.symm)]
    exact ih (by simpa [keysA] using h.2)

theorem upsert_fresh (l : List (List Char × UGroup)) (k : List Char)
    (v : UGroup) (h : k ∉ keysA l) : upsert l k v = l ++ [(k, v)] := by
  induction l with
  | nil => rfl
  | cons p rest ih =>
    simp only [keysA, List.map_cons, List.mem_cons, not_or] at h
    rw [upsert, if_neg (fun hh => h.1 hh.symm), ih (by simpa [keysA] using h.2)]
    rfl

theorem upsert_append_self (l : List (List Char × UGroup)) (k : List Char)
    (v v2 : UGroup) (h : k ∉ keysA l) :
    upsert (l ++ [(k, v)]) k v2 = l ++ [(k, v2)] := by
  induction l with
  | nil => simp [upsert]
  | cons p rest ih =>
    simp only [keysA, List.map_cons, List.mem_cons, not_or] at h
    rw [List.cons_append, upsert, if_neg (fun hh => h.1 hh.symm),
      ih (by simpa [keysA] using h.2)]
    rfl

theorem rdf_pred_ne_subj : RDF.predicate ≠ RDF.subject := by decide

theorem rdf_obj_ne_subj : RDF.object ≠ RDF.subject := by decide

theorem rdf_obj_ne_pred : RDF.object ≠ RDF.predicate := by decide

theorem mld_tid_ne_subj : M_LD.tid ≠ RDF.subject := by decide

theorem mld_tid_ne_pred : M_LD.tid ≠ RDF.predicate := by decide

theorem mld_tid_ne_obj : M_LD.tid ≠ RDF.object := by decide

theorem foldl_unreifyStep_tids (rids : List (List Char × UGroup)) (rid : List Char)
    (part : PartRef) (tids0 tids : List (List Char)) (hfresh : rid ∉ keysA rids) :
    (tids.map (fun tid => (⟨Term.blankNode rid, Term.namedNode M_LD.tid,
        Term.literal tid⟩ : Triple))).foldl unreifyStep
        (rids ++ [(rid, (part, tids0))]) =
      rids ++ [(rid, (part, tids0 ++ tids))] := by
  induction tids generalizing tids0 with
  | nil => simp
  | cons td rest ih =>
    rw [List.map_cons, List.foldl_cons]
    have hstep : unreifyStep (rids ++ [(rid, (part, tids0))])
        ⟨Term.blankNode rid, Term.namedNode M_LD.tid, Term.literal td⟩ =
        rids ++ [(rid, (part, tids0 ++ [td]))] := by
      simp [unreifyStep, Term.value, lookupA_append_self rids rid _ hfresh,
        mld_tid_ne_subj, mld_tid_ne_pred, mld_tid_ne_obj,
        upsert_append_self rids rid _ _ hfresh]
    rw [hstep, ih (tids0 ++ [td])]
    simp

theorem foldl_unreifyStep_block (rids : List (List Char × UGroup)) (t : RefTriple)
    (tids : List (List Char))
    (hid : t.id = '_' :: ':' :: t.id.drop 2)
    (hs : ∃ v, t.subject = Term.namedNode v)
    (hp : ∃ v, t.predicate = Term.namedNode v)
    (hfresh : t.id.drop 2 ∉ keysA rids) :
    (reifyOne t tids).foldl unreifyStep rids =
      rids ++ [(t.id.drop 2, (completedRef t, tids))] := by
  obtain ⟨sv, hsv⟩ := hs
  obtain ⟨pv, hpv⟩ := hp
  rw [reifyOne]
  rw [List.foldl_append]
  rw [List.foldl_cons, List.foldl_cons, List.foldl_cons, List.foldl_nil]
  have h1 : unreifyStep rids
      ⟨Term.blankNode (t.id.drop 2), Term.namedNode RDF.subject, t.subject⟩ =
      rids ++ [(t.id.drop 2, (⟨t.id, some t.subject, none, none⟩, []))] := by
    conv_lhs => rw [hsv]
    simp [unreifyStep, Term.value, lookupA_eq_none rids _ hfresh,
      upsert_fresh rids _ _ hfresh, ← hid, ← hsv]
  rw [h1]
  have h2 : unreifyStep (rids ++ [(t.id.drop 2, (⟨t.id, some t.subject, none, none⟩, []))])
      ⟨Term.blankNode (t.id.drop 2), Term.namedNode RDF.predicate, t.predicate⟩ =
      rids ++ [(t.id.drop 2, (⟨t.id, some t.subject, some t.predicate, none⟩, []))] := by
    conv_lhs => rw [hpv]
    simp [unreifyStep, Term.value, lookupA_append_self rids _ _ hfresh,
      rdf_pred_ne_subj, upsert_append_self rids _ _ _ hfresh, ← hpv]
  rw [h2]
  have h3 : unreifyStep
      (rids ++ [(t.id.drop 2, (⟨t.id, some t.subject, some t.predicate, none⟩, []))])
      ⟨Term.blankNode (t.id.drop 2), Term.namedNode RDF.object, t.object⟩ =
      rids ++ [(t.id.drop 2, (completedRef t, []))] := by
    simp [unreifyStep, Term.value, lookupA_append_self rids _ _ hfresh,
      rdf_obj_ne_subj, rdf_obj_ne_pred, upsert_append_self rids _ _ _ hfresh,
      completedRef]
  rw [h3]
  have h4 := foldl_unreifyStep_tids rids (t.id.drop 2) (completedRef t) [] tids hfresh
  rw [List.nil_append] at h4
  exact h4

theorem blank_id_eq {id : List Char}
    (h : (['_', ':'] : List Char).isPrefixOf id = true) :
    id = '_' :: ':' :: id.drop 2 := by
  rw [List.isPrefixOf_iff_prefix] at h
  obtain ⟨tl, rfl⟩ := h
  rfl

theorem reifyTriplesTids_ok (x : List (RefTriple × List (List Char)))
    (hblank : ∀ p ∈ x, (['_', ':'] : List Char).isPrefixOf p.1.id = true) :
    reifyTriplesTids x = Except.ok (reifyAll x) := by
  induction x with
  | nil => rfl
  | cons p rest ih =>
    obtain ⟨t, tids⟩ := p
    rw [reifyTriplesTids, if_pos (hblank _ (List.mem_cons_self _ _)),
      ih (fun q hq => hblank q (List.mem_cons_of_mem _ hq))]
    rfl

theorem foldl_unreifyStep_all (x : List (RefTriple × List (List Char))) :
    ∀ rids : List (List Char × UGroup),
    (∀ p ∈ x, p.1.id = '_' :: ':' :: p.1.id.drop 2) →
    (∀ p ∈ x, (∃ v, p.1.subject = Term.namedNode v) ∧
      (∃ v, p.1.predicate = Term.namedNode v)) →
    (x.map (fun p => p.1.id.drop 2)).Nodup →
    (∀ p ∈ x, p.1.id.drop 2 ∉ keysA rids) →
    (reifyAll x).foldl unreifyStep rids =
      rids ++ x.map (fun p => (p.1.id.drop 2, (completedRef p.1, p.2))) := by
  induction x with
  | nil => intro rids _ _ _ _; simp [reifyAll]
  | cons p rest ih =>
    intro rids hid hnamed hnodup hfresh
    obtain ⟨t, tids⟩ := p
    rw [reifyAll, List.foldl_append]
    rw [foldl_unreifyStep_block rids t tids (hid _ (List.mem_cons_self _ _))
      (hnamed _ (List.mem_cons_self _ _)).1 (hnamed _ (List.mem_cons_self _ _)).2
      (hfresh _ (List.mem_cons_self _ _))]
    rw [List.map_cons, List.nodup_cons] at hnodup
    rw [ih (rids ++ [(t.id.drop 2, (completedRef t, tids))])
      (fun q hq => hid q (List.mem_cons_of_mem _ hq))
      (fun q hq => hnamed q (List.mem_cons_of_mem _ hq))
      hnodup.2 ?fresh]
    · simp
    case fresh =>
      intro q hq
      rw [keysA, List.map_append]
      rw [List.mem_append]
      push_neg
      constructor
      · exact hfresh q (List.mem_cons_of_mem _ hq)
      · simp only [List.map_cons, List.map_nil, List.mem_singleton]
        intro hcontra
        exact hnodup.1 (hcontra ▸ List.mem_map_of_mem _ hq)

theorem reifyTriplesTids_error (y : List (RefTriple × List (List Char)))
    (h : ∃ p ∈ y, ¬(['_', ':'] : List Char).isPrefixOf p.1.id = true) :
    ∃ e, reifyTriplesTids y = Except.error e := by
  induction y with
  | nil => simp at h
  | cons q rest ih =>
    obtain ⟨t, tids⟩ := q
    by_cases hq : (['_', ':'] : List Char).isPrefixOf t.id = true
    · have hrest : ∃ p ∈ rest, ¬(['_', ':'] : List Char).isPrefixOf p.1.id = true := by
        obtain ⟨p, hp, hnp⟩ := h
        rcases List.mem_cons.mp hp with heq | hmem
        · exact absurd (heq ▸ hq) hnp
        · exact ⟨p, hmem, hnp⟩
      obtain ⟨e, he⟩ := ih hrest
      refine ⟨e, ?_⟩
      rw [reifyTriplesTids, if_pos hq, he]
    · exact ⟨t.id, by rw [reifyTriplesTids, if_neg hq]⟩

theorem nodup_rids (x : List (RefTriple × List (List Char)))
    (hid : ∀ p ∈ x, p.1.id = '_' :: ':' :: p.1.id.drop 2)
    (hnodup : (x.map (fun p => p.1.id)).Nodup) :
    (x.map (fun p => p.1.id.drop 2)).Nodup := by
  induction x with
  | nil => simp
  | cons p rest ih =>
    rw [List.map_cons, List.nodup_cons] at hnodup ⊢
    refine ⟨?_, ih (fun q hq => hid q (List.mem_cons_of_mem _ hq)) hnodup.2⟩
    intro hmem
    obtain ⟨q, hq, heq⟩ := List.mem_map.mp hmem
    have hqp : q.1.id = p.1.id := by
      rw [hid q (List.mem_cons_of_mem _ hq), hid p (List.mem_cons_self _ _), heq]
    exact hnodup.1 (hqp ▸ List.mem_map_of_mem _ hq)

/-- C10: reification round-trips: for every list of distinct-blank-node-
identified triples whose subjects and predicates are IRIs (named nodes), each
paired with a list of TIDs, `unreifyTriplesTids` applied to the successful
result of `reifyTriplesTids` yields the same triples in order, each carrying
the same TIDs (each rebuilt with all three positions filled); and
`reifyTriplesTids` throws a `TypeError` whenever some input triple's
identifier is not a blank node reference. -/
theorem reify_unreify_roundtrip :
    (∀ x : List (RefTriple × List (List Char)),
      (∀ p ∈ x, (['_', ':'] : List Char).isPrefixOf p.1.id = true) →
      (∀ p ∈ x, (∃ v, p.1.subject = Term.namedNode v) ∧
        (∃ v, p.1.predicate = Term.namedNode v)) →
      (x.map (fun p => p.1.id)).Nodup →
      reifyTriplesTids x = Except.ok (reifyAll x) ∧
      unreifyTriplesTids (reifyAll x) =
        x.map (fun p => (completedRef p.1, p.2))) ∧
    (∀ y : List (RefTriple × List (List Char)),
      (∃ p ∈ y, ¬(['_', ':'] : List Char).isPrefixOf p.1.id = true) →
      ∃ e, reifyTriplesTids y = Except.error e) := by
  constructor
  · intro x hblank hnamed hnodup
    have hid : ∀ p ∈ x, p.1.id = '_' :: ':' :: p.1.id.drop 2 :=
      fun p hp => blank_id_eq (hblank p hp)
    refine ⟨reifyTriplesTids_ok x hblank, ?_⟩
    rw [unreifyTriplesTids, foldl_unreifyStep_all x [] hid hnamed
      (nodup_rids x hid hnodup) (fun p _ => by simp [keysA])]
    rw [List.nil_append, List.map_map]
    rfl
  · exact reifyTriplesTids_error

/-- Witness for C10: one concrete triple with a TID round-trips, and an
entry with a non-blank identifier is rejected. -/
theorem reify_unreify_roundtrip_witness :
    (reifyTriplesTids xW = Except.ok (reifyAll xW) ∧
      unreifyTriplesTids (reifyAll xW) =
        xW.map (fun p => (completedRef p.1, p.2))) ∧
    ∃ e, reifyTriplesTids yW = Except.error e :=
  ⟨reify_unreify_roundtrip.1 xW (by decide)
      (fun p hp => by
        rw [xW, List.mem_singleton] at hp
        subst hp
        exact ⟨⟨_, rfl⟩, ⟨_, rfl⟩⟩)
      (by decide),
   reify_unreify_roundtrip.2 yW
     ⟨_, List.mem_singleton.mpr rfl, by decide⟩⟩

theorem present_insertTid_self (s : SuSetState) (t : Trip) (tid : TID) :
    present (insertTid s t tid) t = true := by
  induction s with
  | nil => simp [insertTid, present, tidsOf, lookupT]
  | cons e rest ih =>
    by_cases he : e.1 = t
    · simp only [insertTid, he, if_pos, present, tidsOf, lookupT]
      cases hc : e.2.contains tid with
      | true =>
        have hne : e.2 ≠ [] := by
          intro hnil
          rw [hnil] at hc
          simp at hc
        simp [hne]
      | false => simp
    · simp only [insertTid, he, if_neg, not_false_iff, present, tidsOf, lookupT]
      simpa [present, tidsOf] using ih

theorem present_insertTid_other (s : SuSetState) (tOther : Trip) (tid : TID)
    (t : Trip) (h : tOther ≠ t) :
    present (insertTid s tOther tid) t = present s t := by
  induction s with
  | nil => simp [insertTid, present, tidsOf, lookupT, h]
  | cons e rest ih =>
    by_cases he : e.1 = tOther
    · have hnt : ¬(e.1 = t) := by rw [he]; exact h
      simp [insertTid, he, present, tidsOf, lookupT, hnt, h]
    · by_cases ht : e.1 = t
      · simp [insertTid, he, present, tidsOf, lookupT, ht, Ne.symm h]
      · simp only [insertTid, he, if_neg, not_false_iff]
        simp only [present, tidsOf, lookupT, ht, if_neg, not_false_iff]
        simpa [present, tidsOf] using ih

theorem present_applyInserts_mono (ins : List (Trip × TID)) :
    ∀ s t, present s t = true → present (applyInserts ins s) t = true := by
  induction ins with
  | nil => intro s t h; simpa [applyInserts] using h
  | cons i rest ih =>
    intro s t h
    rw [applyInserts, List.foldl_cons]
    refine ih _ t ?_
    by_cases hi : i.1 = t
    · rw [hi]; exact present_insertTid_self s t i.2
    · rw [present_insertTid_other s i.1 i.2 t hi]; exact h

theorem present_applyInserts_mem (ins : List (Trip × TID)) :
    ∀ s, ∀ p ∈ ins, present (applyInserts ins s) p.1 = true := by
  induction ins with
  | nil => intro s p hp; simp at hp
  | cons i rest ih =>
    intro s p hp
    rw [applyInserts, List.foldl_cons]
    rcases List.mem_cons.mp hp with heq | hmem
    · subst heq
      exact present_applyInserts_mono rest _ p.1 (present_insertTid_self s p.1 p.2)
    · exact ih _ p hmem

theorem present_applyInserts_absent (ins : List (Trip × TID)) :
    ∀ s t, present s t = false → (∀ p ∈ ins, p.1 ≠ t) →
    present (applyInserts ins s) t = false := by
  induction ins with
  | nil => intro s t h _; simpa [applyInserts] using h
  | cons i rest ih =>
    intro s t h hne
    rw [applyInserts, List.foldl_cons]
    refine ih _ t ?_ (fun p hp => hne p (List.mem_cons_of_mem _ hp))
    rw [present_insertTid_other s i.1 i.2 t (hne i (List.mem_cons_self _ _))]
    exact h

/-- C1: for every incoming fused operation covering a tick range, when the
local dataset has already applied some TIDs in that range from the same
source, applying the fusion withdraws from the incoming inserts every
reified triple whose TID is already reflected in the local GWC and applies
only the remainder: a triple that is absent after the deletes (in
particular one whose sole asserting TID was deleted by a concurrent
third-party operation) and all of whose incoming inserts carry
already-reflected TIDs is not re-inserted by the fusion, while inserts
carried only by the fusion's newer (unreflected) ticks are applied. -/
theorem applyFusion_stale_cut (s : SuSetState) (reflected : List TID)
    (dels ins : List (Trip × TID)) :
    (∀ t : Trip,
      present (applyDeletes dels s) t = false →
      (∀ p ∈ ins, p.1 = t → reflected.contains p.2 = true) →
      present (applyFusion s reflected dels ins) t = false) ∧
    (∀ p ∈ ins, reflected.contains p.2 = false →
      present (applyFusion s reflected dels ins) p.1 = true) := by
  constructor
  · intro t habs hrefl
    rw [applyFusion]
    refine present_applyInserts_absent _ _ t habs ?_
    intro p hp
    obtain ⟨hmem, hcond⟩ := List.mem_filter.mp hp
    intro hpt
    rw [hrefl p hmem hpt] at hcond
    simp at hcond
  · intro p hp hnotrefl
    rw [applyFusion]
    refine present_applyInserts_mem _ _ p ?_
    rw [cutInserts, List.mem_filter]
    exact ⟨hp, by simpa using hnotrefl⟩

/-- Witness for C1: the spec's scenario 5 — the fusion re-carries the stale
insert of `wilma` (TID `W1`, already reflected and since deleted by a third
party) together with the newer insert of `barney`; after application `wilma`
is absent and `barney` is present. -/
theorem applyFusion_stale_cut_witness :
    present (applyFusion sW ["W1"] [] insW) "wilma" = false ∧
    present (applyFusion sW ["W1"] [] insW) "barney" = true :=
  ⟨(applyFusion_stale_cut sW ["W1"] [] insW).1 "wilma" (by decide) (by decide),
   (applyFusion_stale_cut sW ["W1"] [] insW).2 ("barney", "B2") (by decide)
     (by decide)⟩

/-- C2: a local transaction whose patch resolves to no deletes and no
inserts, and a received remote operation whose deletes and inserts are both
empty, commit no journal entry and emit no update (`transact`/`applyRemote`
return a `null` message and no update event fires); in the remote case the
local clock is still joined with the operation's time. -/
theorem noop_transact_apply (st : SuState) (txnTime opTime : SVClock)
    (maxOpSize : Nat) :
    (transact st txnTime [] [] maxOpSize).msg = none ∧
    (transact st txnTime [] [] maxOpSize).err = none ∧
    (transact st txnTime [] [] maxOpSize).state = st ∧
    (applyRemote st opTime [] []).msg = none ∧
    (applyRemote st opTime [] []).state.journal = st.journal ∧
    (applyRemote st opTime [] []).state.updates = st.updates ∧
    (applyRemote st opTime [] []).state.graph = st.graph ∧
    (applyRemote st opTime [] []).state.time = st.time.join opTime := by
  simp [transact, applyRemote]

/-- C3: a local write transaction whose encoded operation exceeds the
configured `maxOperationSize` aborts with `OperationSizeExceeded`: no
journal entry is committed, no message is published, and the engine state
(including the visible graph) is left unchanged. -/
theorem transact_size_exceeded (st : SuState) (txnTime : SVClock)
    (dels ins : List (Trip × TID)) (maxOpSize : Nat)
    (hne : ¬(dels.isEmpty ∧ ins.isEmpty))
    (hsize : opSize dels ins > maxOpSize) :
    (transact st txnTime dels ins maxOpSize).err =
      some MeldErr.OperationSizeExceeded ∧
    (transact st txnTime dels ins maxOpSize).msg = none ∧
    (transact st txnTime dels ins maxOpSize).state = st := by
  rw [transact, if_neg hne, if_pos hsize]
  exact ⟨rfl, rfl, rfl⟩

/-- Witness for C3: inserting `wilma` with `maxOperationSize = 1` fails and
leaves the state unchanged. -/
theorem transact_size_exceeded_witness :
    (transact stW [1] [] [("wilma", "W1")] 1).err =
      some MeldErr.OperationSizeExceeded ∧
    (transact stW [1] [] [("wilma", "W1")] 1).state = stW :=
  ⟨(transact_size_exceeded stW [1] [] [("wilma", "W1")] 1 (by decide)
      (by decide)).1,
   (transact_size_exceeded stW [1] [] [("wilma", "W1")] 1 (by decide)
      (by decide)).2.2⟩
